import Mathlib

/-!
# Verification of the image-dedup-cli duplicate engine

A shallow embedding of `src/main.rs`: directory scanning by extension
allow-list, perceptual-hash fingerprint folding, hash-bucket grouping,
and relocation of duplicate-group members into a `duplicates` quarantine
subdirectory.  Paths are modelled as component lists, the filesystem as
explicit state, and the external decode/hash collaborator as an oracle
function; machine integers (`u8`, `u64`) are `Nat` with explicit `% 256`
and `% 2 ^ 64`.
-/

namespace ImageDedup

/-- A filesystem path, as its list of components (`PathBuf` in the source). -/
abbrev Path := List String

/-- The extension allow-list (`VALID_EXTENSIONS`, main.rs line 13). -/
def VALID_EXTENSIONS : List String := ["png", "jpeg", "jpg", "gif"]

/-- Rust `Path::extension` applied to a single file name: the portion after
the final dot; `none` when the name has no dot, or begins with its only
dot. -/
def extension (name : String) : Option String :=
  match name.data.reverse.dropWhile (fun c => c != '.') with
  | [] => none
  | _ :: stem =>
      if stem.isEmpty then none
      else some (String.mk ((name.data.reverse.takeWhile (fun c => c != '.')).reverse))

/-- Rust `Path::file_name`: the final component; `none` for the empty path
and for paths ending in `..` or `.`. -/
def file_name (p : Path) : Option String :=
  match p.getLast? with
  | none => none
  | some s => if s == ".." || s == "." then none else some s

/-- Rust `Path::extension` on a full path (used at main.rs lines 40-45 as
`pb.extension()`): the extension of the file name, when both exist. -/
def pathExtension (p : Path) : Option String := (file_name p).bind extension

/-- One step of the fingerprint fold (main.rs lines 64-67):
`hash_num |= (*byte as u64) << (8 * idx)`, the `u8`/`u64` types made
explicit as `% 256` and `% 2 ^ 64`. -/
def hashNumGo : Nat → Nat → List Nat → Nat
  | acc, _, [] => acc
  | acc, idx, b :: rest =>
      hashNumGo ((acc ||| ((b % 256) <<< (8 * idx))) % 2 ^ 64) (idx + 1) rest

/-- The 64-bit fingerprint folded from a hash byte sequence
(main.rs lines 63-67). -/
def hash_num (bytes : List Nat) : Nat := hashNumGo 0 0 bytes

/-- Little-endian base-256 value of a byte list; auxiliary form used to
reason about `hash_num`. -/
def byteFold : List Nat → Nat
  | [] => 0
  | b :: rest => b + 256 * byteFold rest

/-! ## Filesystem model -/

/-- Filesystem state: existing regular files (with a numeric content token,
which doubles as the metadata length) and existing directories. -/
structure FS where
  files : List (Path × Nat)
  dirs : List Path
deriving DecidableEq

/-- Content token of the file at `p`, when it exists. -/
def FS.fileAt (fs : FS) (p : Path) : Option Nat :=
  (fs.files.find? fun q => q.1 == p).map Prod.snd

/-- Whether the directory `p` exists. -/
def FS.dirExists (fs : FS) (p : Path) : Bool := fs.dirs.contains p

/-- Rust `fs::metadata(p).len()` with the source's fallback: main.rs lines
72-75 treat a metadata failure as size 0. -/
def FS.metadataLen (fs : FS) (p : Path) : Nat := (fs.fileAt p).getD 0

/-- The name of `p` as a direct child of directory `d`, when it is one. -/
def childName (d p : Path) : Option String :=
  if p.length == d.length + 1 && p.take d.length == d then p.getLast? else none

/-- Directory listing: names of files and directories directly inside `d`. -/
def FS.listDir (fs : FS) (d : Path) : List String :=
  (fs.files.map Prod.fst).filterMap (childName d) ++ fs.dirs.filterMap (childName d)

/-- The chain of non-empty ancestors of `p`, shortest first and `p` itself
last: the directories `fs::create_dir_all` must provide. -/
def dirChain (p : Path) : List Path := (List.range p.length).map fun i => p.take (i + 1)

/-- Rust `fs::create_dir_all`: creates `p` and every missing ancestor; fails
when a component of the chain exists as a regular file. -/
def FS.create_dir_all (fs : FS) (p : Path) : Except String FS :=
  if (dirChain p).any fun q => (fs.fileAt q).isSome then
    .error "create_dir_all: a component exists as a file"
  else .ok { fs with dirs := fs.dirs ++ (dirChain p).filter fun q => !fs.dirExists q }

/-- Rust `fs::rename`: moves the file at `src` to `dst`, replacing any
existing file at `dst` — the documented behaviour of `std::fs::rename` on
both Unix (`rename(2)`) and Windows (`MoveFileExW` with
`MOVEFILE_REPLACE_EXISTING`); fails when `src` does not exist, and fails
when `dst` is an existing directory (`EISDIR` on Unix, access error on
Windows). -/
def FS.rename (fs : FS) (src dst : Path) : Except String FS :=
  match fs.fileAt src with
  | none => .error "rename: no such file"
  | some c =>
      if fs.dirExists dst then .error "rename: destination is a directory"
      else .ok { fs with
        files := (fs.files.filter fun q => !(q.1 == src) && !(q.1 == dst)) ++ [(dst, c)] }

/-- Rust `fs::read_dir`: the entries directly inside `d`; fails when `d` is
not an existing directory. -/
def FS.read_dir (fs : FS) (d : Path) : Except String (List String) :=
  if fs.dirExists d then .ok (fs.listDir d) else .error "read_dir: no such directory"

/-- Rust `fs::remove_dir`: removes the empty directory `d`; fails when `d`
does not exist or is not empty. -/
def FS.remove_dir (fs : FS) (d : Path) : Except String FS :=
  if !fs.dirExists d then .error "remove_dir: no such directory"
  else if !(fs.listDir d).isEmpty then .error "remove_dir: directory not empty"
  else .ok { fs with dirs := fs.dirs.erase d }

/-! ## The pipeline -/

/-- Diagnostics the program prints, abstracted from the formatted strings. -/
inductive Msg
  | skipOpen (p : Path) (cause : String)
  | moveFailed (name : String) (cause : String)
  | removeFailed (p : Path) (cause : String)
  | noDuplicates (dir : Path)
  | missingArg
  | dirFailed (cause : String)
deriving DecidableEq

/-- `ImageProperties` (main.rs lines 23-28). -/
structure ImageProperties where
  path : Path
  file_size : Nat
deriving DecidableEq

/-- The external decode-and-hash collaborator: `image::open` composed with
`hasher.hash_image(..).as_bytes()`; an error is an opaque decode failure. -/
abbrev HashOracle := Path → Except String (List Nat)

/-- The entries matched by `glob(dir + "/*.*")` (main.rs lines 33-38):
entries directly inside `dir` whose name contains a dot. -/
def glob_entries (fs : FS) (dir : Path) : List Path :=
  ((fs.listDir dir).filter fun n => n.data.contains '.').map fun n => dir ++ [n]

/-- The scanner (main.rs lines 33-47): glob entries whose extension is in
the allow-list, compared case-sensitively, a missing extension read as `""`. -/
def scan (fs : FS) (dir : Path) : List Path :=
  (glob_entries fs dir).filter fun p => VALID_EXTENSIONS.contains ((pathExtension p).getD "")

/-- The `hashes.entry(hash_num).or_default().push(img_prop)` step (main.rs
line 81), the `HashMap` modelled as an association list in first-insertion
key order. -/
def insertGrouped : List (Nat × List ImageProperties) → Nat → ImageProperties →
    List (Nat × List ImageProperties)
  | [], k, r => [(k, [r])]
  | (k', v) :: m, k, r =>
      if k' = k then (k', v ++ [r]) :: m else (k', v) :: insertGrouped m k r

/-- The hashing loop (main.rs lines 55-82): open each candidate through the
oracle, skip it and warn on failure, otherwise fold the hash bytes into a
fingerprint and push an `ImageProperties` into the map. -/
def processImages (oracle : HashOracle) (fs : FS) :
    List Path → List (Nat × List ImageProperties) →
    List (Nat × List ImageProperties) × List Msg
  | [], m => (m, [])
  | p :: rest, m =>
      match oracle p with
      | .error e =>
          let r := processImages oracle fs rest m
          (r.1, Msg.skipOpen p e :: r.2)
      | .ok bytes =>
          processImages oracle fs rest
            (insertGrouped m (hash_num bytes) ⟨p, fs.metadataLen p⟩)

/-- The grouping stage in isolation: the hash map built by folding
`insertGrouped` over a record sequence. -/
def buildGroups (recs : List (Nat × ImageProperties)) : List (Nat × List ImageProperties) :=
  recs.foldl (fun m kr => insertGrouped m kr.1 kr.2) []

/-- The records the extractor produces: one per candidate the oracle
decodes, in candidate order. -/
def extractRecords (oracle : HashOracle) (fs : FS) (images : List Path) :
    List (Nat × ImageProperties) :=
  images.filterMap fun p =>
    match oracle p with
    | .error _ => none
    | .ok bytes => some (hash_num bytes, ⟨p, fs.metadataLen p⟩)

/-- Group lookup by fingerprint (empty when the key is absent). -/
def lookupGroup (m : List (Nat × List ImageProperties)) (k : Nat) : List ImageProperties :=
  ((m.find? fun kv => kv.1 == k).map Prod.snd).getD []

/-- The final component of a record's path (defaulting to the empty name);
the name the relocator pushes onto the path buffer. -/
def nameOf (e : ImageProperties) : String := e.path.getLast?.getD ""

/-- State threaded through the relocation loop: the filesystem, the shared
mutable `duplicate_path` buffer, the warnings, and the trace of attempted
renames. -/
structure RelocState where
  fs : FS
  buf : Path
  errs : List Msg
  attempts : List (Path × Path)
deriving DecidableEq

/-- One iteration of the move loop (main.rs lines 92-102): push the file
name onto the buffer, attempt the rename, pop the buffer; a record whose
path has no file name is skipped. -/
def moveOne (st : RelocState) (e : ImageProperties) : RelocState :=
  match file_name e.path with
  | none => st
  | some name =>
      let buf1 := st.buf ++ [name]
      match st.fs.rename e.path buf1 with
      | .ok fs' =>
          { fs := fs', buf := buf1.dropLast, errs := st.errs,
            attempts := st.attempts ++ [(e.path, buf1)] }
      | .error err =>
          { fs := st.fs, buf := buf1.dropLast,
            errs := st.errs ++ [Msg.moveFailed name err],
            attempts := st.attempts ++ [(e.path, buf1)] }

/-- The relocation stage (main.rs lines 88-103): for every group of size at
least 2, attempt to move every member. -/
def relocate (fs : FS) (dupPath : Path) (hashes : List (Nat × List ImageProperties)) :
    RelocState :=
  ((hashes.map Prod.snd).filter fun es => es.length > 1).foldl
    (fun st es => es.foldl moveOne st)
    { fs := fs, buf := dupPath, errs := [], attempts := [] }

/-- The quarantine cleanup (main.rs lines 105-119): when the quarantine
directory can be read and is empty, remove it, reporting the parent on
success and warning on failure. -/
def cleanup (fs : FS) (dupPath : Path) : FS × List Msg × List Msg :=
  match fs.read_dir dupPath with
  | .error _ => (fs, [], [])
  | .ok entries =>
      if entries.length = 0 then
        match fs.remove_dir dupPath with
        | .ok fs2 => (fs2, [Msg.noDuplicates dupPath.dropLast], [])
        | .error e => (fs, [], [Msg.removeFailed dupPath e])
      else (fs, [], [])

/-- Per-directory outcome of `find_duplicates`, with the rename attempts
kept as an observation trace. -/
structure RunResult where
  fs : FS
  stdout : List Msg
  stderr : List Msg
  result : Except String Unit
  attempts : List (Path × Path)

/-- `find_duplicates` (main.rs lines 30-123). -/
def find_duplicates (oracle : HashOracle) (fs : FS) (dir : Path) : RunResult :=
  let images := scan fs dir
  let pr := processImages oracle fs images []
  let dupPath := dir ++ ["duplicates"]
  match fs.create_dir_all dupPath with
  | .error e => { fs := fs, stdout := [], stderr := pr.2, result := .error e, attempts := [] }
  | .ok fs1 =>
      let st := relocate fs1 dupPath pr.1
      let cl := cleanup st.fs dupPath
      { fs := cl.1, stdout := cl.2.1, stderr := pr.2 ++ st.errs ++ cl.2.2,
        result := .ok (), attempts := st.attempts }

/-- Aggregate outcome of `main`. -/
structure MainResult where
  fs : FS
  stdout : List Msg
  stderr : List Msg

/-- Whether an `Except` value is a success. -/
def isOkE {ε α : Type} : Except ε α → Bool
  | .ok _ => true
  | .error _ => false

/-- `main` (main.rs lines 125-137): usage diagnostic when no directories are
given, otherwise run `find_duplicates` on each directory and print the
failed results (the parallel fan-out linearized in argument order). -/
def main (oracle : HashOracle) (dirs : List Path) (fs : FS) : MainResult :=
  if dirs.isEmpty then { fs := fs, stdout := [], stderr := [Msg.missingArg] }
  else
    dirs.foldl
      (fun acc dir =>
        let r := find_duplicates oracle acc.fs dir
        { fs := r.fs, stdout := acc.stdout ++ r.stdout,
          stderr := acc.stderr ++ r.stderr ++
            (match r.result with | .ok _ => [] | .error e => [Msg.dirFailed e]) })
      { fs := fs, stdout := [], stderr := [] }

/-- The decode warnings the hashing loop emits, in candidate order: one per
candidate the oracle rejects. -/
def decodeWarnings (oracle : HashOracle) (images : List Path) : List Msg :=
  images.filterMap fun p =>
    match oracle p with
    | .error e => some (Msg.skipOpen p e)
    | .ok _ => none

/-! ## Concrete scenarios -/

/-- The empty filesystem. -/
def emptyFS : FS := ⟨[], []⟩

/-- An oracle under which no candidate decodes. -/
def failOracle : HashOracle := fun _ => .error "decode error"

/-- An oracle that decodes every path to the same 8-byte hash. -/
def constOracle : HashOracle := fun _ => .ok [1, 0, 0, 0, 0, 0, 0, 0]

/-- Claim C5 scenario: a directory `d` holding `a.png`, `b.txt` and `c.JPG`. -/
def extFilterFS : FS :=
  ⟨[(["d", "a.png"], 1), (["d", "b.txt"], 2), (["d", "c.JPG"], 3)], [["d"]]⟩

/-- Claim C1 scenario: `d/img.png` and `d/b.png` are perceptual duplicates,
and a leftover `d/duplicates/img.png` already occupies the destination
name. -/
def collisionFS : FS :=
  ⟨[(["d", "img.png"], 10), (["d", "b.png"], 11), (["d", "duplicates", "img.png"], 99)],
   [["d"], ["d", "duplicates"]]⟩

/-- Claim C6 scenario: a prior run left `d/duplicates/old.png` behind and
the current run has nothing to move. -/
def leftoverFS : FS := ⟨[(["d", "duplicates", "old.png"], 5)], [["d"], ["d", "duplicates"]]⟩

/-- Claim C7 scenario: two perceptual duplicates and one unique image. -/
def dupFS : FS := ⟨[(["d", "a.png"], 1), (["d", "b.png"], 2), (["d", "c.png"], 3)], [["d"]]⟩

/-- Oracle for `dupFS`: `a.png` and `b.png` hash alike, `c.png` differs,
anything else fails to decode. -/
def dupOracle : HashOracle := fun p =>
  if p == ["d", "a.png"] || p == ["d", "b.png"] then .ok [1, 0, 0, 0, 0, 0, 0, 0]
  else if p == ["d", "c.png"] then .ok [2, 0, 0, 0, 0, 0, 0, 0]
  else .error "decode error"

/-! ## Fingerprint lemmas -/

theorem lor_shiftLeft_eq_add {a b k : Nat} (h : a < 2 ^ k) :
    a ||| (b <<< k) = b * 2 ^ k + a := by
  apply Nat.eq_of_testBit_eq
  intro j
  rw [Nat.testBit_lor, Nat.testBit_shiftLeft, Nat.mul_comm b (2 ^ k),
    Nat.testBit_mul_pow_two_add b h j]
  by_cases hj : j < k
  · have hge : ¬(j ≥ k) := Nat.not_le.mpr hj
    simp [hj, hge]
  · have hk : k ≤ j := Nat.not_lt.mp hj
    have ha : a.testBit j = false :=
      Nat.testBit_lt_two_pow (Nat.lt_of_lt_of_le h (Nat.pow_le_pow_right (by omega) hk))
    simp [hj, hk, ha]

theorem hashNumGo_eq (bytes : List Nat) : ∀ idx acc : Nat,
    (∀ b ∈ bytes, b < 256) → idx + bytes.length ≤ 8 → acc < 2 ^ (8 * idx) →
    hashNumGo acc idx bytes = acc + byteFold bytes * 2 ^ (8 * idx) := by
  induction bytes with
  | nil => intro idx acc _ _ _; simp [hashNumGo, byteFold]
  | cons b rest ih =>
      intro idx acc hb hlen hacc
      have hidx8 : idx + 1 + rest.length ≤ 8 := by
        simp only [List.length_cons] at hlen; omega
      have hb0 : b < 256 := hb b (by simp)
      have hmod : b % 256 = b := Nat.mod_eq_of_lt hb0
      have hpow : (2 : Nat) ^ (8 * (idx + 1)) = 2 ^ (8 * idx) * 256 := by
        have h1 : 8 * (idx + 1) = 8 * idx + 8 := by omega
        rw [h1, Nat.pow_add]
      have hlor : acc ||| (b <<< (8 * idx)) = b * 2 ^ (8 * idx) + acc :=
        lor_shiftLeft_eq_add hacc
      have hbound : b * 2 ^ (8 * idx) + acc < 2 ^ (8 * (idx + 1)) := by
        rw [hpow]
        have h2 : (0 : Nat) < 2 ^ (8 * idx) := Nat.pos_pow_of_pos _ (by omega)
        nlinarith
      have hb64 : b * 2 ^ (8 * idx) + acc < 2 ^ 64 :=
        Nat.lt_of_lt_of_le hbound (Nat.pow_le_pow_right (by omega) (by omega))
      have hstep : hashNumGo acc idx (b :: rest) =
          hashNumGo (b * 2 ^ (8 * idx) + acc) (idx + 1) rest := by
        show hashNumGo ((acc ||| (b % 256) <<< (8 * idx)) % 2 ^ 64) (idx + 1) rest = _
        rw [hmod, hlor, Nat.mod_eq_of_lt hb64]
      rw [hstep, ih (idx + 1) (b * 2 ^ (8 * idx) + acc)
        (fun x hx => hb x (by simp [hx])) (by omega) hbound]
      rw [byteFold, hpow]
      ring

theorem hash_num_eq_byteFold (bytes : List Nat) (hb : ∀ b ∈ bytes, b < 256)
    (hlen : bytes.length ≤ 8) : hash_num bytes = byteFold bytes := by
  have h := hashNumGo_eq bytes 0 0 hb (by omega) (by simp)
  simpa [hash_num] using h

theorem sum_map_mul_const (l : List Nat) (f : Nat → Nat) (c : Nat) :
    (l.map fun x => f x * c).sum = (l.map f).sum * c := by
  induction l with
  | nil => simp
  | cons x xs ih => simp [ih, Nat.add_mul]

theorem byteFold_eq_sum (l : List Nat) :
    byteFold l = ((List.range l.length).map fun i => l.getD i 0 * 2 ^ (8 * i)).sum := by
  induction l with
  | nil => simp [byteFold]
  | cons b rest ih =>
      rw [show byteFold (b :: rest) = b + 256 * byteFold rest from rfl, ih]
      rw [List.length_cons, List.range_succ_eq_map, List.map_cons, List.map_map, List.sum_cons]
      have hmap : (List.range rest.length).map
            ((fun i => (b :: rest).getD i 0 * 2 ^ (8 * i)) ∘ Nat.succ) =
          (List.range rest.length).map fun i => (rest.getD i 0 * 2 ^ (8 * i)) * 256 := by
        apply List.map_congr_left
        intro i _
        show (b :: rest).getD (i + 1) 0 * 2 ^ (8 * (i + 1)) = rest.getD i 0 * 2 ^ (8 * i) * 256
        rw [List.getD_cons_succ, show 8 * (i + 1) = 8 * i + 8 from by omega, Nat.pow_add]
        ring
      rw [hmap, sum_map_mul_const]
      rw [show (b :: rest).getD 0 0 = b from rfl]
      ring

theorem byteFold_inj : ∀ l1 l2 : List Nat, l1.length = l2.length →
    (∀ b ∈ l1, b < 256) → (∀ b ∈ l2, b < 256) → byteFold l1 = byteFold l2 → l1 = l2 := by
  intro l1
  induction l1 with
  | nil => intro l2 hlen _ _ _; cases l2 with
      | nil => rfl
      | cons c r2 => simp at hlen
  | cons b rest ih =>
      intro l2 hlen h1 h2 heq
      cases l2 with
      | nil => simp at hlen
      | cons c r2 =>
          have hb : b < 256 := h1 b (by simp)
          have hc : c < 256 := h2 c (by simp)
          simp only [byteFold] at heq
          have hbc : b = c ∧ byteFold rest = byteFold r2 := by omega
          have hrest : rest = r2 :=
            ih r2 (by simp at hlen; omega) (fun x hx => h1 x (by simp [hx]))
              (fun x hx => h2 x (by simp [hx])) hbc.2
          rw [hbc.1, hrest]

/-- Claim C4: the fingerprint places byte `i` at bit offset `8 * i`, byte 0
least significant — it equals the sum over `i` of `byte i * 2 ^ (8 * i)` —
and on 8-byte sequences the encoding is injective: two records receive the
same fingerprint exactly when their hash byte sequences are equal. -/
theorem c4_fingerprint_encoding (bytes : List Nat) (h8 : bytes.length = 8)
    (hb : ∀ b ∈ bytes, b < 256) :
    hash_num bytes = ((List.range 8).map (fun i => bytes.getD i 0 * 2 ^ (8 * i))).sum ∧
    ∀ bytes2 : List Nat, bytes2.length = 8 → (∀ b ∈ bytes2, b < 256) →
      (hash_num bytes = hash_num bytes2 ↔ bytes = bytes2) := by
  constructor
  · rw [hash_num_eq_byteFold bytes hb (by omega), byteFold_eq_sum, h8]
  · intro bytes2 h82 hb2
    constructor
    · intro h
      apply byteFold_inj bytes bytes2 (by omega) hb hb2
      rw [← hash_num_eq_byteFold bytes hb (by omega),
        ← hash_num_eq_byteFold bytes2 hb2 (by omega), h]
    · intro h; rw [h]

/-- Witness for C4: the characterization evaluated at the concrete byte
sequence `[1, 2, 3, 4, 5, 6, 7, 8]`. -/
theorem c4_fingerprint_encoding_witness :
    hash_num [1, 2, 3, 4, 5, 6, 7, 8] =
      ((List.range 8).map (fun i => [1, 2, 3, 4, 5, 6, 7, 8].getD i 0 * 2 ^ (8 * i))).sum :=
  (c4_fingerprint_encoding [1, 2, 3, 4, 5, 6, 7, 8] rfl (by decide)).1

/-! ## Grouping lemmas -/

theorem lookupGroup_nil (k : Nat) : lookupGroup [] k = [] := rfl

theorem lookupGroup_cons (k0 : Nat) (v : List ImageProperties)
    (m : List (Nat × List ImageProperties)) (k : Nat) :
    lookupGroup ((k0, v) :: m) k = if k0 = k then v else lookupGroup m k := by
  by_cases h : k0 = k
  · simp [lookupGroup, List.find?, h]
  · have hb : (k0 == k) = false := beq_eq_false_iff_ne.mpr h
    simp [lookupGroup, List.find?, hb, h]

theorem insertGrouped_cons_self (k0 : Nat) (v : List ImageProperties)
    (m : List (Nat × List ImageProperties)) (r : ImageProperties) :
    insertGrouped ((k0, v) :: m) k0 r = (k0, v ++ [r]) :: m := by
  simp [insertGrouped]

theorem insertGrouped_cons_ne (k0 : Nat) (v : List ImageProperties)
    (m : List (Nat × List ImageProperties)) (k : Nat) (r : ImageProperties) (h : k0 ≠ k) :
    insertGrouped ((k0, v) :: m) k r = (k0, v) :: insertGrouped m k r := by
  simp [insertGrouped, h]

theorem lookupGroup_insertGrouped (m : List (Nat × List ImageProperties)) (k : Nat)
    (r : ImageProperties) : ∀ k',
    lookupGroup (insertGrouped m k r) k' =
      if k = k' then lookupGroup m k' ++ [r] else lookupGroup m k' := by
  induction m with
  | nil =>
      intro k'
      by_cases h : k = k'
      · simp [insertGrouped, lookupGroup_cons, lookupGroup_nil, h]
      · simp [insertGrouped, lookupGroup_cons, lookupGroup_nil, h]
  | cons kv m ih =>
      intro k'
      obtain ⟨k0, v⟩ := kv
      by_cases h0 : k0 = k
      · subst h0
        rw [insertGrouped_cons_self]
        by_cases h : k0 = k'
        · subst h; simp [lookupGroup_cons]
        · simp [lookupGroup_cons, h]
      · rw [insertGrouped_cons_ne k0 v m k r h0]
        by_cases h : k0 = k'
        · subst h
          have hkk : ¬ k = k0 := fun hh => h0 hh.symm
          simp [lookupGroup_cons, hkk]
        · simp [lookupGroup_cons, h, ih k']

theorem lookupGroup_buildGroups_aux (recs : List (Nat × ImageProperties)) :
    ∀ (m : List (Nat × List ImageProperties)) (k : Nat),
    lookupGroup (recs.foldl (fun m kr => insertGrouped m kr.1 kr.2) m) k =
      lookupGroup m k ++ (recs.filter fun kr => kr.1 == k).map Prod.snd := by
  induction recs with
  | nil => intro m k; simp
  | cons kr recs ih =>
      intro m k
      rw [List.foldl_cons, ih, lookupGroup_insertGrouped]
      by_cases h : kr.1 = k
      · simp [List.filter_cons, h]
      · simp [List.filter_cons, h]

theorem lookupGroup_buildGroups (recs : List (Nat × ImageProperties)) (k : Nat) :
    lookupGroup (buildGroups recs) k = (recs.filter fun kr => kr.1 == k).map Prod.snd := by
  have h := lookupGroup_buildGroups_aux recs [] k
  simpa [buildGroups, lookupGroup_nil] using h

theorem keys_insertGrouped (m : List (Nat × List ImageProperties)) (k : Nat)
    (r : ImageProperties) :
    (insertGrouped m k r).map Prod.fst =
      if k ∈ m.map Prod.fst then m.map Prod.fst else m.map Prod.fst ++ [k] := by
  induction m with
  | nil => simp [insertGrouped]
  | cons kv m ih =>
      obtain ⟨k0, v⟩ := kv
      by_cases h0 : k0 = k
      · subst h0
        rw [insertGrouped_cons_self]
        simp
      · rw [insertGrouped_cons_ne k0 v m k r h0]
        have hne : ¬ k = k0 := fun hh => h0 hh.symm
        by_cases hm : k ∈ m.map Prod.fst
        · simp [ih, hm, hne]
        · simp [ih, hm, hne]

theorem keysNodup_insertGrouped (m : List (Nat × List ImageProperties)) (k : Nat)
    (r : ImageProperties) (h : (m.map Prod.fst).Nodup) :
    ((insertGrouped m k r).map Prod.fst).Nodup := by
  rw [keys_insertGrouped]
  by_cases hm : k ∈ m.map Prod.fst
  · simpa [hm]
  · rw [if_neg hm]
    exact List.Nodup.append h (List.nodup_singleton k) (by simpa using hm)

theorem keysNodup_buildGroups (recs : List (Nat × ImageProperties)) :
    ((buildGroups recs).map Prod.fst).Nodup := by
  have h : ∀ m : List (Nat × List ImageProperties), (m.map Prod.fst).Nodup →
      ((recs.foldl (fun m kr => insertGrouped m kr.1 kr.2) m).map Prod.fst).Nodup := by
    induction recs with
    | nil => intro m hm; simpa
    | cons kr recs ih => intro m hm; exact ih _ (keysNodup_insertGrouped m kr.1 kr.2 hm)
  simpa [buildGroups] using h [] (by simp)

theorem lookupGroup_of_mem : ∀ m : List (Nat × List ImageProperties),
    (m.map Prod.fst).Nodup → ∀ kv ∈ m, lookupGroup m kv.1 = kv.2 := by
  intro m
  induction m with
  | nil => intro _ kv hkv; simp at hkv
  | cons kv0 m ih =>
      intro hnd kv hkv
      obtain ⟨k0, v0⟩ := kv0
      simp only [List.map_cons, List.nodup_cons] at hnd
      rcases List.mem_cons.mp hkv with h | h
      · subst h
        simp [lookupGroup_cons]
      · have hk : kv.1 ≠ k0 := by
          intro hh
          exact hnd.1 (hh ▸ List.mem_map.mpr ⟨kv, h, rfl⟩)
        rw [lookupGroup_cons, if_neg fun hh => hk hh.symm]
        exact ih hnd.2 kv h

theorem nonempty_insertGrouped (m : List (Nat × List ImageProperties)) (k : Nat)
    (r : ImageProperties) (h : ∀ kv ∈ m, kv.2 ≠ []) :
    ∀ kv ∈ insertGrouped m k r, kv.2 ≠ [] := by
  induction m with
  | nil =>
      intro kv hkv
      simp [insertGrouped] at hkv
      rw [hkv]
      simp
  | cons kv0 m ih =>
      obtain ⟨k0, v0⟩ := kv0
      by_cases h0 : k0 = k
      · subst h0
        intro kv hkv
        rw [insertGrouped_cons_self] at hkv
        rcases List.mem_cons.mp hkv with hh | hh
        · rw [hh]; simp
        · exact h kv (List.mem_cons_of_mem _ hh)
      · intro kv hkv
        rw [insertGrouped_cons_ne k0 v0 m k r h0] at hkv
        rcases List.mem_cons.mp hkv with hh | hh
        · rw [hh]; exact h (k0, v0) (by simp)
        · exact ih (fun kv hkv => h kv (List.mem_cons_of_mem _ hkv)) kv hh

theorem nonempty_buildGroups (recs : List (Nat × ImageProperties)) :
    ∀ kv ∈ buildGroups recs, kv.2 ≠ [] := by
  have h : ∀ m, (∀ kv ∈ m, kv.2 ≠ []) →
      ∀ kv ∈ recs.foldl (fun m kr => insertGrouped m kr.1 kr.2) m, kv.2 ≠ [] := by
    induction recs with
    | nil => intro m hm; simpa using hm
    | cons kr recs ih => intro m hm; exact ih _ (nonempty_insertGrouped m kr.1 kr.2 hm)
  exact h [] (by simp)

theorem processImages_eq (oracle : HashOracle) (fs : FS) : ∀ (images : List Path)
    (m : List (Nat × List ImageProperties)),
    processImages oracle fs images m =
      ((extractRecords oracle fs images).foldl (fun m kr => insertGrouped m kr.1 kr.2) m,
       decodeWarnings oracle images) := by
  intro images
  induction images with
  | nil => intro m; simp [processImages, extractRecords, decodeWarnings]
  | cons p rest ih =>
      intro m
      cases h : oracle p with
      | error e => simp [processImages, extractRecords, decodeWarnings, h, ih]
      | ok bytes => simp [processImages, extractRecords, decodeWarnings, h, ih]

/-- Claim C3: grouping partitions the successfully-hashed records — the
group at key `k` holds exactly the records fingerprinted `k`, in extractor
order; keys are pairwise distinct; every listed group is the non-empty
group of its own key; every record lands in the group of its own
fingerprint; and this is exactly the map the hashing loop builds. -/
theorem c3_grouping_partition (recs : List (Nat × ImageProperties)) :
    (∀ k, lookupGroup (buildGroups recs) k = (recs.filter fun kr => kr.1 == k).map Prod.snd) ∧
    ((buildGroups recs).map Prod.fst).Nodup ∧
    (∀ kv ∈ buildGroups recs, lookupGroup (buildGroups recs) kv.1 = kv.2 ∧ kv.2 ≠ []) ∧
    (∀ kr ∈ recs, kr.2 ∈ lookupGroup (buildGroups recs) kr.1) ∧
    ∀ (oracle : HashOracle) (fs : FS) (images : List Path),
      (processImages oracle fs images []).1 = buildGroups (extractRecords oracle fs images) := by
  refine ⟨lookupGroup_buildGroups recs, keysNodup_buildGroups recs, ?_, ?_, ?_⟩
  · intro kv hkv
    exact ⟨lookupGroup_of_mem _ (keysNodup_buildGroups recs) kv hkv,
      nonempty_buildGroups recs kv hkv⟩
  · intro kr hkr
    rw [lookupGroup_buildGroups]
    exact List.mem_map.mpr ⟨kr, List.mem_filter.mpr ⟨hkr, by simp⟩, rfl⟩
  · intro oracle fs images
    rw [processImages_eq]
    rfl

/-- Witness for C3: in a run with two records sharing fingerprint 1, the
second one is found in the group keyed 1. -/
theorem c3_grouping_partition_witness :
    (⟨["d", "b.png"], 2⟩ : ImageProperties) ∈
      lookupGroup (buildGroups [(1, ⟨["d", "a.png"], 1⟩), (1, ⟨["d", "b.png"], 2⟩),
        (2, ⟨["d", "c.png"], 3⟩)]) 1 :=
  (c3_grouping_partition [(1, ⟨["d", "a.png"], 1⟩), (1, ⟨["d", "b.png"], 2⟩),
      (2, ⟨["d", "c.png"], 3⟩)]).2.2.2.1
    (1, ⟨["d", "b.png"], 2⟩) (by simp)

/-- Claim C9: a candidate whose decode fails is skipped with a non-fatal
warning naming the path and the cause, no record is created for it, and
the remaining candidates are still processed: the warnings are exactly one
per failing candidate in candidate order, and the map is built from
exactly the records of the successfully decoded candidates. -/
theorem c9_decode_failure_skip (oracle : HashOracle) (fs : FS) (images : List Path) :
    (processImages oracle fs images []).2 = decodeWarnings oracle images ∧
    (processImages oracle fs images []).1 = buildGroups (extractRecords oracle fs images) ∧
    (∀ p e, p ∈ images → oracle p = .error e →
      Msg.skipOpen p e ∈ (processImages oracle fs images []).2) ∧
    ∀ p e, oracle p = .error e → ∀ kr ∈ extractRecords oracle fs images, kr.2.path ≠ p := by
  refine ⟨?_, ?_, ?_, ?_⟩
  · rw [processImages_eq]
  · rw [processImages_eq]
    rfl
  · intro p e hp he
    rw [processImages_eq]
    exact List.mem_filterMap.mpr ⟨p, hp, by rw [he]⟩
  · intro p e he kr hkr hpath
    obtain ⟨q, hq, hfq⟩ := List.mem_filterMap.mp hkr
    cases hoq : oracle q with
    | error e2 =>
        rw [hoq] at hfq
        exact absurd hfq (by simp)
    | ok bytes =>
        rw [hoq] at hfq
        have hkr2 : kr = (hash_num bytes, ⟨q, fs.metadataLen q⟩) := by
          simpa using hfq.symm
        rw [hkr2] at hpath
        dsimp at hpath
        rw [hpath] at hoq
        rw [he] at hoq
        exact absurd hoq (by simp)

/-- Witness for C9: with the failing oracle over the `dupFS` scan, the
warning for `c.png` is emitted. -/
theorem c9_decode_failure_skip_witness :
    Msg.skipOpen ["d", "c.png"] "decode error" ∈
      (processImages failOracle dupFS (scan dupFS ["d"]) []).2 :=
  (c9_decode_failure_skip failOracle dupFS (scan dupFS ["d"])).2.2.1
    ["d", "c.png"] "decode error" (by decide) rfl

/-- Claim C8: with an empty directory collection, `main` reports the usage
diagnostic exactly once on the error stream, leaves the filesystem
untouched, and performs no scanning, hashing, grouping or relocation
work. -/
theorem c8_no_args (oracle : HashOracle) (fs : FS) :
    main oracle [] fs = { fs := fs, stdout := [], stderr := [Msg.missingArg] } := rfl

/-! ## Scanner lemmas -/

theorem mem_of_contains {α : Type} [BEq α] [LawfulBEq α] {l : List α} {a : α}
    (h : l.contains a = true) : a ∈ l := List.mem_of_elem_eq_true h

theorem contains_of_mem {α : Type} [BEq α] [LawfulBEq α] {l : List α} {a : α}
    (h : a ∈ l) : l.contains a = true := List.elem_eq_true_of_mem h

theorem file_name_append (dir : Path) (name : String) :
    file_name (dir ++ [name]) =
      if name == ".." || name == "." then none else some name := by
  unfold file_name
  rw [List.getLast?_concat]

theorem pathExtension_append_dots (dir : Path) (name : String)
    (hdd : (name == ".." || name == ".") = true) :
    pathExtension (dir ++ [name]) = none := by
  rw [pathExtension, file_name_append, hdd]
  simp

theorem pathExtension_append (dir : Path) (name : String)
    (hdd : (name == ".." || name == ".") = false) :
    pathExtension (dir ++ [name]) = extension name := by
  rw [pathExtension, file_name_append, hdd]
  simp

theorem contains_dot_of_dropWhile_ne_nil :
    ∀ l : List Char, l.dropWhile (fun c => c != '.') ≠ [] → '.' ∈ l := by
  intro l
  induction l with
  | nil => intro h; simp [List.dropWhile] at h
  | cons c t ih =>
      intro h
      by_cases hc : c = '.'
      · simp [hc]
      · rw [List.dropWhile_cons] at h
        have hb : (c != '.') = true := by simpa using hc
        rw [hb] at h
        simp at h
        exact List.mem_cons_of_mem _ h

theorem extension_contains_dot (name : String) (e : String)
    (h : extension name = some e) : name.data.contains '.' = true := by
  unfold extension at h
  cases hd : name.data.reverse.dropWhile (fun c => c != '.') with
  | nil => rw [hd] at h; simp at h
  | cons c stem =>
      have hne : name.data.reverse.dropWhile (fun c => c != '.') ≠ [] := by
        rw [hd]; simp
      have hm : '.' ∈ name.data.reverse := contains_dot_of_dropWhile_ne_nil _ hne
      exact contains_of_mem (List.mem_reverse.mp hm)

theorem extension_dotdot : extension ".." = some "" := rfl

theorem extension_dot : extension "." = none := rfl

theorem valid_ext_not_dots (name e : String) (hext : extension name = some e)
    (hev : e ∈ VALID_EXTENSIONS) : (name == ".." || name == ".") = false := by
  cases hnn : (name == "..") with
  | true =>
      have hn2 : name = ".." := by simpa using hnn
      rw [hn2, extension_dotdot] at hext
      have he : "" = e := by simpa using hext
      rw [← he] at hev
      exact absurd hev (by decide)
  | false =>
      cases hn1 : (name == ".") with
      | true =>
          have hn2 : name = "." := by simpa using hn1
          rw [hn2, extension_dot] at hext
          exact absurd hext (by simp)
      | false => simp [hnn, hn1]

theorem scan_mem_iff (fs : FS) (dir : Path) (p : Path) :
    p ∈ scan fs dir ↔
      ∃ name, p = dir ++ [name] ∧ name ∈ fs.listDir dir ∧
        ∃ e, extension name = some e ∧ e ∈ VALID_EXTENSIONS := by
  constructor
  · intro hp
    obtain ⟨hg, hpred⟩ := List.mem_filter.mp hp
    obtain ⟨name, hn, hpn⟩ := List.mem_map.mp hg
    obtain ⟨hmem, hdot⟩ := List.mem_filter.mp hn
    refine ⟨name, hpn.symm, hmem, ?_⟩
    rw [← hpn] at hpred
    cases hdd : (name == ".." || name == ".") with
    | true =>
        rw [pathExtension_append_dots dir name hdd] at hpred
        exact absurd hpred (by decide)
    | false =>
        rw [pathExtension_append dir name hdd] at hpred
        cases hext : extension name with
        | none =>
            rw [hext] at hpred
            exact absurd hpred (by decide)
        | some e =>
            rw [hext] at hpred
            exact ⟨e, rfl, mem_of_contains hpred⟩
  · rintro ⟨name, hpn, hmem, e, hext, hev⟩
    subst hpn
    apply List.mem_filter.mpr
    refine ⟨?_, ?_⟩
    · exact List.mem_map.mpr
        ⟨name, List.mem_filter.mpr ⟨hmem, extension_contains_dot name e hext⟩, rfl⟩
    · rw [pathExtension_append dir name (valid_ext_not_dots name e hext hev), hext]
      exact contains_of_mem hev

/-- Claim C5: a file directly inside the scanned directory is a candidate
iff its extension, compared case-sensitively, is one of the four allow-list
entries; names without a recognizable extension are excluded; and in the
`a.png` / `b.txt` / `c.JPG` scenario only `a.png` survives. -/
theorem c5_extension_filter (fs : FS) (dir : Path) (p : Path) :
    (p ∈ scan fs dir ↔
      ∃ name, p = dir ++ [name] ∧ name ∈ fs.listDir dir ∧
        ∃ e, extension name = some e ∧ e ∈ VALID_EXTENSIONS) ∧
    scan extFilterFS ["d"] = [["d", "a.png"]] :=
  ⟨scan_mem_iff fs dir p, by decide⟩

/-! ## Filesystem operation lemmas -/

theorem fileAt_congr {fs fs' : FS} (h : fs'.files = fs.files) (q : Path) :
    fs'.fileAt q = fs.fileAt q := by
  unfold FS.fileAt
  rw [h]

theorem find?_filter_keep (l : List (Path × Nat)) (src dst q : Path)
    (hq1 : q ≠ src) (hq2 : q ≠ dst) :
    ((l.filter fun x => !(x.1 == src) && !(x.1 == dst)).find? fun x => x.1 == q) =
      l.find? fun x => x.1 == q := by
  induction l with
  | nil => rfl
  | cons x l ih =>
      by_cases hs : x.1 = src
      · have h1 : (x.1 == q) = false :=
          beq_eq_false_iff_ne.mpr (by rw [hs]; exact fun hh => hq1 hh.symm)
        have h2 : (x.1 == src) = true := by rw [hs]; exact beq_self_eq_true src
        simp [List.filter_cons, List.find?_cons, h1, h2, ih]
      · by_cases hd : x.1 = dst
        · have h1 : (x.1 == q) = false :=
            beq_eq_false_iff_ne.mpr (by rw [hd]; exact fun hh => hq2 hh.symm)
          have h2 : (x.1 == dst) = true := by rw [hd]; exact beq_self_eq_true dst
          simp [List.filter_cons, List.find?_cons, h1, h2, ih]
        · have h2 : (x.1 == src) = false := beq_eq_false_iff_ne.mpr hs
          have h3 : (x.1 == dst) = false := beq_eq_false_iff_ne.mpr hd
          cases h1 : (x.1 == q) with
          | true => simp [List.filter_cons, List.find?_cons, h1, h2, h3]
          | false => simp [List.filter_cons, List.find?_cons, h1, h2, h3, ih]

theorem find?_filter_gone (l : List (Path × Nat)) (src dst q : Path)
    (hq : q = src ∨ q = dst) :
    ((l.filter fun x => !(x.1 == src) && !(x.1 == dst)).find? fun x => x.1 == q) = none := by
  rw [List.find?_eq_none]
  intro x hx
  have hx2 := (List.mem_filter.mp hx).2
  simp only [Bool.and_eq_true, Bool.not_eq_true'] at hx2
  intro hxq
  have hxq2 := eq_of_beq hxq
  rcases hq with h | h
  · rw [h] at hxq2
    rw [hxq2] at hx2
    simpa using hx2.1
  · rw [h] at hxq2
    rw [hxq2] at hx2
    simpa using hx2.2

theorem rename_ok_iff {fs : FS} {src dst : Path} {c : Nat}
    (hsrc : fs.fileAt src = some c) (hdst : fs.dirExists dst = false) :
    fs.rename src dst = .ok { fs with
      files := (fs.files.filter fun x => !(x.1 == src) && !(x.1 == dst)) ++ [(dst, c)] } := by
  unfold FS.rename
  rw [hsrc, hdst]
  rfl

theorem rename_ok_elim {fs fs' : FS} {src dst : Path} {c : Nat}
    (hsrc : fs.fileAt src = some c) (h : fs.rename src dst = .ok fs') :
    fs' = { fs with
      files := (fs.files.filter fun x => !(x.1 == src) && !(x.1 == dst)) ++ [(dst, c)] } := by
  unfold FS.rename at h
  simp only [hsrc] at h
  split at h
  · exact absurd h (by simp)
  · injection h with h2
    exact h2.symm

theorem fileAt_rename_dst {fs fs' : FS} {src dst : Path} {c : Nat}
    (hsrc : fs.fileAt src = some c) (h : fs.rename src dst = .ok fs') :
    fs'.fileAt dst = some c := by
  rw [rename_ok_elim hsrc h]
  show ((((fs.files.filter fun x => !(x.1 == src) && !(x.1 == dst)) ++ [(dst, c)]).find?
      fun x => x.1 == dst)).map Prod.snd = some c
  rw [List.find?_append, find?_filter_gone fs.files src dst dst (Or.inr rfl)]
  simp

theorem fileAt_rename_src {fs fs' : FS} {src dst : Path} {c : Nat} (hne : src ≠ dst)
    (hsrc : fs.fileAt src = some c) (h : fs.rename src dst = .ok fs') :
    fs'.fileAt src = none := by
  rw [rename_ok_elim hsrc h]
  show ((((fs.files.filter fun x => !(x.1 == src) && !(x.1 == dst)) ++ [(dst, c)]).find?
      fun x => x.1 == src)).map Prod.snd = none
  rw [List.find?_append, find?_filter_gone fs.files src dst src (Or.inl rfl)]
  have : ((dst, c).1 == src) = false := beq_eq_false_iff_ne.mpr fun hh => hne hh.symm
  simp [this]

theorem fileAt_rename_other {fs fs' : FS} {src dst q : Path} {c : Nat}
    (hq1 : q ≠ src) (hq2 : q ≠ dst)
    (hsrc : fs.fileAt src = some c) (h : fs.rename src dst = .ok fs') :
    fs'.fileAt q = fs.fileAt q := by
  rw [rename_ok_elim hsrc h]
  show ((((fs.files.filter fun x => !(x.1 == src) && !(x.1 == dst)) ++ [(dst, c)]).find?
      fun x => x.1 == q)).map Prod.snd = fs.fileAt q
  rw [List.find?_append, find?_filter_keep fs.files src dst q hq1 hq2]
  have : ((dst, c).1 == q) = false := beq_eq_false_iff_ne.mpr fun hh => hq2 hh.symm
  simp [this, FS.fileAt]

theorem rename_dirs {fs fs' : FS} {src dst : Path} {c : Nat}
    (hsrc : fs.fileAt src = some c) (h : fs.rename src dst = .ok fs') :
    fs'.dirs = fs.dirs := by
  rw [rename_ok_elim hsrc h]

theorem create_dir_all_ok {fs : FS} {p : Path} (h : ∀ q ∈ dirChain p, fs.fileAt q = none) :
    fs.create_dir_all p =
      .ok { fs with dirs := fs.dirs ++ (dirChain p).filter fun q => !fs.dirExists q } := by
  unfold FS.create_dir_all
  have hc : ((dirChain p).any fun q => (fs.fileAt q).isSome) = false := by
    rw [List.any_eq_false]
    intro q hq
    simp [h q hq]
  rw [hc]
  rfl

theorem create_dir_all_files {fs fs' : FS} {p : Path} (h : fs.create_dir_all p = .ok fs') :
    fs'.files = fs.files := by
  unfold FS.create_dir_all at h
  split at h
  · exact absurd h (by simp)
  · injection h with h2
    rw [← h2]

theorem create_dir_all_dirs {fs fs' : FS} {p : Path} (h : fs.create_dir_all p = .ok fs') :
    fs'.dirs = fs.dirs ++ (dirChain p).filter fun q => !fs.dirExists q := by
  unfold FS.create_dir_all at h
  split at h
  · exact absurd h (by simp)
  · injection h with h2
    rw [← h2]

theorem dirExists_congr {fs fs' : FS} (h : fs'.dirs = fs.dirs) (q : Path) :
    fs'.dirExists q = fs.dirExists q := by
  unfold FS.dirExists
  rw [h]

theorem remove_dir_files {fs fs' : FS} {d : Path} (h : fs.remove_dir d = .ok fs') :
    fs'.files = fs.files ∧ fs'.dirs = fs.dirs.erase d := by
  unfold FS.remove_dir at h
  split at h
  · exact absurd h (by simp)
  · split at h
    · exact absurd h (by simp)
    · injection h with h2
      rw [← h2]
      exact ⟨rfl, rfl⟩

theorem cleanup_files (fs : FS) (d : Path) : (cleanup fs d).1.files = fs.files := by
  unfold cleanup
  split
  · rfl
  · split
    · split
      · next fs2 hrm => exact (remove_dir_files hrm).1
      · rfl
    · rfl

/-! ## Relocation loop lemmas -/

theorem moveOne_buf (st : RelocState) (e : ImageProperties) : (moveOne st e).buf = st.buf := by
  unfold moveOne
  cases hf : file_name e.path with
  | none => rfl
  | some name =>
      cases hr : st.fs.rename e.path (st.buf ++ [name]) with
      | ok fs' => simp [hr]
      | error err => simp [hr]

theorem moveOne_skip (st : RelocState) (e : ImageProperties)
    (h : file_name e.path = none) : moveOne st e = st := by
  unfold moveOne
  rw [h]

theorem foldl_moveOne_flatten (bigs : List (List ImageProperties)) :
    ∀ st : RelocState,
    bigs.foldl (fun st es => es.foldl moveOne st) st = bigs.flatten.foldl moveOne st := by
  induction bigs with
  | nil => intro st; rfl
  | cons es rest ih =>
      intro st
      rw [List.foldl_cons, List.flatten_cons, List.foldl_append, ih]

theorem moveOne_attempts_cases (st : RelocState) (e : ImageProperties) :
    (moveOne st e).attempts = st.attempts ∨
    ∃ name, file_name e.path = some name ∧
      (moveOne st e).attempts = st.attempts ++ [(e.path, st.buf ++ [name])] := by
  unfold moveOne
  cases hf : file_name e.path with
  | none => exact Or.inl rfl
  | some name =>
      right
      refine ⟨name, rfl, ?_⟩
      cases hr : st.fs.rename e.path (st.buf ++ [name]) with
      | ok fs' => simp [hr]
      | error err => simp [hr]

theorem foldl_moveOne_attempts_inv (dupPath : Path) :
    ∀ (rs : List ImageProperties) (st : RelocState), st.buf = dupPath →
    (∀ a ∈ st.attempts, ∃ name, file_name a.1 = some name ∧ a.2 = dupPath ++ [name]) →
    (rs.foldl moveOne st).buf = dupPath ∧
    ∀ a ∈ (rs.foldl moveOne st).attempts,
      ∃ name, file_name a.1 = some name ∧ a.2 = dupPath ++ [name] := by
  intro rs
  induction rs with
  | nil => intro st hbuf hinv; exact ⟨hbuf, hinv⟩
  | cons e rest ih =>
      intro st hbuf hinv
      rw [List.foldl_cons]
      apply ih
      · rw [moveOne_buf, hbuf]
      · intro a ha
        rcases moveOne_attempts_cases st e with hc | ⟨name, hf, hc⟩
        · rw [hc] at ha
          exact hinv a ha
        · rw [hc] at ha
          rcases List.mem_append.mp ha with h | h
          · exact hinv a h
          · have ha2 : a = (e.path, st.buf ++ [name]) := by simpa using h
            rw [ha2]
            exact ⟨name, hf, by rw [hbuf]⟩

theorem relocate_buf_attempts (fs : FS) (dupPath : Path)
    (hashes : List (Nat × List ImageProperties)) :
    (relocate fs dupPath hashes).buf = dupPath ∧
    ∀ a ∈ (relocate fs dupPath hashes).attempts,
      ∃ name, file_name a.1 = some name ∧ a.2 = dupPath ++ [name] := by
  unfold relocate
  rw [foldl_moveOne_flatten]
  exact foldl_moveOne_attempts_inv dupPath _ _ rfl (by simp)

theorem moveOne_ok {st : RelocState} {e : ImageProperties} {name : String} {fs' : FS}
    (hf : file_name e.path = some name)
    (hr : st.fs.rename e.path (st.buf ++ [name]) = .ok fs') :
    moveOne st e = { fs := fs', buf := st.buf, errs := st.errs,
                     attempts := st.attempts ++ [(e.path, st.buf ++ [name])] } := by
  unfold moveOne
  rw [hf]
  simp [hr]

theorem moveFold_spec (dupPath : Path) : ∀ (rs : List ImageProperties) (st : RelocState),
    st.buf = dupPath →
    (∀ e ∈ rs, file_name e.path = some (nameOf e) ∧ e.path.length = dupPath.length ∧
      (st.fs.fileAt e.path).isSome = true) →
    (∀ e ∈ rs, st.fs.dirExists (dupPath ++ [nameOf e]) = false) →
    ((rs.map fun e => e.path).Nodup) →
    ((rs.map nameOf).Nodup) →
    (rs.foldl moveOne st).errs = st.errs ∧
    (rs.foldl moveOne st).attempts =
      st.attempts ++ rs.map (fun e => (e.path, dupPath ++ [nameOf e])) ∧
    (∀ e ∈ rs, (rs.foldl moveOne st).fs.fileAt e.path = none) ∧
    (∀ e ∈ rs, (rs.foldl moveOne st).fs.fileAt (dupPath ++ [nameOf e]) = st.fs.fileAt e.path) ∧
    (∀ q : Path, (∀ e ∈ rs, q ≠ e.path ∧ q ≠ dupPath ++ [nameOf e]) →
      (rs.foldl moveOne st).fs.fileAt q = st.fs.fileAt q) ∧
    (rs.foldl moveOne st).fs.dirs = st.fs.dirs := by
  intro rs
  induction rs with
  | nil =>
      intro st hbuf hall hfree hnd hnames
      exact ⟨rfl, by simp, by simp, by simp, fun q _ => rfl, rfl⟩
  | cons e rest ih =>
      intro st hbuf hall hfree hnd hnames
      obtain ⟨hfn, hlen, hsome⟩ := hall e (by simp)
      obtain ⟨c, hc⟩ := Option.isSome_iff_exists.mp hsome
      simp only [List.map_cons, List.nodup_cons] at hnd hnames
      have hlen_ne : ∀ (pp : Path) (s : String), pp.length = dupPath.length →
          pp ≠ dupPath ++ [s] := by
        intro pp s h1 hh
        have h2 := congrArg List.length hh
        rw [h1, List.length_append, List.length_singleton] at h2
        omega
      have hnsd : e.path ≠ dupPath ++ [nameOf e] := hlen_ne e.path (nameOf e) hlen
      have hdstf : st.fs.dirExists (st.buf ++ [nameOf e]) = false := by
        rw [hbuf]
        exact hfree e (by simp)
      obtain ⟨fs1, hr⟩ : ∃ fs1, st.fs.rename e.path (st.buf ++ [nameOf e]) = .ok fs1 :=
        ⟨_, rename_ok_iff hc hdstf⟩
      have hst1 : moveOne st e = { fs := fs1, buf := st.buf, errs := st.errs,
                                   attempts := st.attempts ++ [(e.path, st.buf ++ [nameOf e])] } :=
        moveOne_ok hfn hr
      rw [hbuf] at hr
      have hdst : fs1.fileAt (dupPath ++ [nameOf e]) = some c := fileAt_rename_dst hc hr
      have hsrc1 : fs1.fileAt e.path = none := fileAt_rename_src hnsd hc hr
      have hother : ∀ q, q ≠ e.path → q ≠ dupPath ++ [nameOf e] →
          fs1.fileAt q = st.fs.fileAt q :=
        fun q h1 h2 => fileAt_rename_other h1 h2 hc hr
      have hdirs1 : fs1.dirs = st.fs.dirs := rename_dirs hc hr
      have hne_path : ∀ e' ∈ rest, e'.path ≠ e.path := by
        intro e' he' hh
        exact hnd.1 (List.mem_map.mpr ⟨e', he', hh⟩)
      have hne_dst : ∀ e' ∈ rest, e'.path ≠ dupPath ++ [nameOf e] := fun e' he' =>
        hlen_ne e'.path (nameOf e) (hall e' (by simp [he'])).2.1
      have hne_name : ∀ e' ∈ rest, nameOf e' ≠ nameOf e := by
        intro e' he' hh
        exact hnames.1 (List.mem_map.mpr ⟨e', he', hh⟩)
      have hall2 : ∀ e' ∈ rest, file_name e'.path = some (nameOf e') ∧
          e'.path.length = dupPath.length ∧
          ((moveOne st e).fs.fileAt e'.path).isSome = true := by
        intro e' he'
        obtain ⟨a1, a2, a3⟩ := hall e' (by simp [he'])
        refine ⟨a1, a2, ?_⟩
        rw [hst1]
        dsimp only
        rw [hother e'.path (hne_path e' he') (hne_dst e' he')]
        exact a3
      have hbuf1 : (moveOne st e).buf = dupPath := by rw [hst1]; exact hbuf
      have hfree2 : ∀ e' ∈ rest, (moveOne st e).fs.dirExists (dupPath ++ [nameOf e']) = false := by
        intro e' he'
        rw [hst1]
        dsimp only
        rw [dirExists_congr hdirs1]
        exact hfree e' (by simp [he'])
      obtain ⟨ierrs, iatt, inone, imoved, ipres, idirs⟩ :=
        ih (moveOne st e) hbuf1 hall2 hfree2 hnd.2 hnames.2
      refine ⟨?_, ?_, ?_, ?_, ?_, ?_⟩
      · rw [List.foldl_cons, ierrs, hst1]
      · rw [List.foldl_cons, iatt, hst1]
        dsimp only
        rw [hbuf, List.map_cons, List.append_assoc]
        rfl
      · intro e' he'
        rcases List.mem_cons.mp he' with hh | hh
        · rw [hh, List.foldl_cons,
            ipres e.path (fun e'' he'' =>
              ⟨fun h2 => hne_path e'' he'' h2.symm,
               fun h2 => hlen_ne e.path (nameOf e'') hlen h2⟩)]
          rw [hst1]
          dsimp only
          exact hsrc1
        · exact inone e' hh
      · intro e' he'
        rcases List.mem_cons.mp he' with hh | hh
        · rw [hh, List.foldl_cons,
            ipres (dupPath ++ [nameOf e]) (fun e'' he'' =>
              ⟨fun h2 => hne_dst e'' he'' h2.symm,
               fun h2 => by
                 have h3 := List.append_cancel_left h2
                 have h4 : nameOf e = nameOf e'' := by simpa using h3
                 exact hne_name e'' he'' h4.symm⟩)]
          rw [hst1]
          dsimp only
          rw [hdst, hc]
        · rw [List.foldl_cons, imoved e' hh, hst1]
          dsimp only
          exact hother e'.path (hne_path e' hh) (hne_dst e' hh)
      · intro q hq
        rw [List.foldl_cons,
          ipres q (fun e'' he'' => hq e'' (by simp [he'']))]
        rw [hst1]
        dsimp only
        exact hother q (hq e (by simp)).1 (hq e (by simp)).2
      · rw [List.foldl_cons, idirs, hst1]
        dsimp only
        exact hdirs1

theorem relocate_spec (fs : FS) (dupPath : Path) (hashes : List (Nat × List ImageProperties))
    (hall : ∀ e ∈ ((hashes.map Prod.snd).filter fun es => es.length > 1).flatten,
      file_name e.path = some (nameOf e) ∧ e.path.length = dupPath.length ∧
      (fs.fileAt e.path).isSome = true)
    (hfree : ∀ e ∈ ((hashes.map Prod.snd).filter fun es => es.length > 1).flatten,
      fs.dirExists (dupPath ++ [nameOf e]) = false)
    (hnd : ((((hashes.map Prod.snd).filter fun es => es.length > 1).flatten).map
      fun e => e.path).Nodup)
    (hnames : ((((hashes.map Prod.snd).filter fun es => es.length > 1).flatten).map
      nameOf).Nodup) :
    (relocate fs dupPath hashes).errs = [] ∧
    (relocate fs dupPath hashes).attempts =
      ((hashes.map Prod.snd).filter fun es => es.length > 1).flatten.map
        (fun e => (e.path, dupPath ++ [nameOf e])) ∧
    (∀ e ∈ ((hashes.map Prod.snd).filter fun es => es.length > 1).flatten,
      (relocate fs dupPath hashes).fs.fileAt e.path = none ∧
      (relocate fs dupPath hashes).fs.fileAt (dupPath ++ [nameOf e]) = fs.fileAt e.path) ∧
    (∀ q : Path, (∀ e ∈ ((hashes.map Prod.snd).filter fun es => es.length > 1).flatten,
      q ≠ e.path ∧ q ≠ dupPath ++ [nameOf e]) →
      (relocate fs dupPath hashes).fs.fileAt q = fs.fileAt q) ∧
    (relocate fs dupPath hashes).fs.dirs = fs.dirs := by
  unfold relocate
  rw [foldl_moveOne_flatten]
  obtain ⟨h1, h2, h3, h4, h5, h6⟩ :=
    moveFold_spec dupPath ((hashes.map Prod.snd).filter fun es => es.length > 1).flatten
      { fs := fs, buf := dupPath, errs := [], attempts := [] } rfl hall hfree hnd hnames
  exact ⟨h1, by simpa using h2, fun e he => ⟨h3 e he, h4 e he⟩, h5, h6⟩

/-- Claim C10: the shared path buffer is restored to the quarantine path
after every iteration of the move loop, each attempted destination is
exactly the quarantine path extended with that record's own file name (no
component from an earlier iteration leaks), and a record whose path has no
file-name component is skipped without a move attempt. -/
theorem c10_buffer_restored :
    (∀ (st : RelocState) (e : ImageProperties), (moveOne st e).buf = st.buf) ∧
    (∀ (st : RelocState) (e : ImageProperties), file_name e.path = none → moveOne st e = st) ∧
    ∀ (fs : FS) (dupPath : Path) (hashes : List (Nat × List ImageProperties)),
      (relocate fs dupPath hashes).buf = dupPath ∧
      ∀ a ∈ (relocate fs dupPath hashes).attempts,
        ∃ name, file_name a.1 = some name ∧ a.2 = dupPath ++ [name] :=
  ⟨moveOne_buf, moveOne_skip, relocate_buf_attempts⟩

/-- Witness for C10: a record whose path ends in `..` has no file name and
is skipped, and the buffer of a concrete empty relocation stays put. -/
theorem c10_buffer_restored_witness :
    moveOne ⟨emptyFS, ["d", "duplicates"], [], []⟩ ⟨["d", ".."], 0⟩ =
      ⟨emptyFS, ["d", "duplicates"], [], []⟩ :=
  c10_buffer_restored.2.1 ⟨emptyFS, ["d", "duplicates"], [], []⟩ ⟨["d", ".."], 0⟩ rfl

/-! ## Well-formedness lemmas for a whole run -/

theorem childName_eq (d p : Path) (n : String) (h : childName d p = some n) : p = d ++ [n] := by
  unfold childName at h
  by_cases hc : (p.length == d.length + 1 && p.take d.length == d) = true
  · rw [if_pos hc] at h
    obtain ⟨hl, ht⟩ : p.length = d.length + 1 ∧ p.take d.length = d := by simpa using hc
    have hdrop : (p.drop d.length).length = 1 := by simp [hl]
    obtain ⟨x, hx⟩ : ∃ x, p.drop d.length = [x] := by
      match hh : p.drop d.length with
      | [] => rw [hh] at hdrop; simp at hdrop
      | [x] => exact ⟨x, rfl⟩
      | x :: y :: t => rw [hh] at hdrop; simp at hdrop
    have hp : p = d ++ [x] := by
      rw [← ht, ← hx]
      exact (List.take_append_drop _ p).symm
    rw [hp, List.getLast?_concat] at h
    have hxn : x = n := by simpa using h
    rw [hp, hxn]
  · rw [if_neg hc] at h
    exact absurd h (by simp)

theorem listDir_nodup (fs : FS) (d : Path)
    (hnd : ((fs.files.map Prod.fst) ++ fs.dirs).Nodup) : (fs.listDir d).Nodup := by
  have heq : fs.listDir d = ((fs.files.map Prod.fst) ++ fs.dirs).filterMap (childName d) := by
    unfold FS.listDir
    rw [List.filterMap_append]
  rw [heq]
  apply List.Nodup.filterMap ?_ hnd
  intro a a' b hb hb'
  have h1 : childName d a = some b := hb
  have h2 : childName d a' = some b := hb'
  rw [childName_eq d a b h1, childName_eq d a' b h2]

theorem scan_nodup (fs : FS) (dir : Path)
    (hnd : ((fs.files.map Prod.fst) ++ fs.dirs).Nodup) : (scan fs dir).Nodup := by
  unfold scan glob_entries
  apply List.Nodup.filter
  apply List.Nodup.map
  · intro a b hab
    simpa using List.append_cancel_left hab
  · exact List.Nodup.filter _ (listDir_nodup fs dir hnd)

theorem extractRecords_paths_eq (oracle : HashOracle) (fs : FS) : ∀ images : List Path,
    (extractRecords oracle fs images).map (fun kr => kr.2.path) =
      images.filter fun p => isOkE (oracle p) := by
  intro images
  induction images with
  | nil => rfl
  | cons p rest ih =>
      cases h : oracle p with
      | error e =>
          simp [extractRecords, List.filterMap_cons, List.filter_cons, h, isOkE] at ih ⊢
          exact ih
      | ok bytes =>
          simp [extractRecords, List.filterMap_cons, List.filter_cons, h, isOkE] at ih ⊢
          exact ih

theorem mem_extractRecords (oracle : HashOracle) (fs : FS) (images : List Path)
    (kr : Nat × ImageProperties) (hkr : kr ∈ extractRecords oracle fs images) :
    kr.2.path ∈ images ∧ ∃ bytes, oracle kr.2.path = .ok bytes := by
  obtain ⟨q, hq, hfq⟩ := List.mem_filterMap.mp hkr
  cases hoq : oracle q with
  | error e =>
      rw [hoq] at hfq
      exact absurd hfq (by simp)
  | ok bytes =>
      rw [hoq] at hfq
      have hkr2 : kr = (hash_num bytes, ⟨q, fs.metadataLen q⟩) := by simpa using hfq.symm
      rw [hkr2]
      exact ⟨hq, bytes, hoq⟩

theorem mem_buildGroups_mem_recs (recs : List (Nat × ImageProperties)) :
    ∀ kv ∈ buildGroups recs, ∀ e ∈ kv.2, (kv.1, e) ∈ recs := by
  intro kv hkv e he
  have h1 : kv.2 = (recs.filter fun kr => kr.1 == kv.1).map Prod.snd :=
    (lookupGroup_of_mem _ (keysNodup_buildGroups recs) kv hkv).symm.trans
      (lookupGroup_buildGroups recs kv.1)
  rw [h1] at he
  obtain ⟨kr, hkr, hkre⟩ := List.mem_map.mp he
  obtain ⟨hkr1, hkr2⟩ := List.mem_filter.mp hkr
  have hk : kr.1 = kv.1 := by simpa using hkr2
  have hkr3 : (kv.1, e) = kr := by
    rw [← hk, ← hkre]
  rw [hkr3]
  exact hkr1

theorem mem_flatten_groups (recs : List (Nat × ImageProperties)) (e : ImageProperties)
    (he : e ∈ (((buildGroups recs).map Prod.snd).filter fun es => es.length > 1).flatten) :
    ∃ kv ∈ buildGroups recs, e ∈ kv.2 ∧ kv.2.length > 1 := by
  obtain ⟨es, hes, hee⟩ := List.mem_flatten.mp he
  obtain ⟨hes1, hlen⟩ := List.mem_filter.mp hes
  obtain ⟨kv, hkv, hkv2⟩ := List.mem_map.mp hes1
  refine ⟨kv, hkv, by rw [hkv2]; exact hee, ?_⟩
  rw [hkv2]
  simpa using hlen

theorem mem_flatten_groups_recs (recs : List (Nat × ImageProperties)) (e : ImageProperties)
    (he : e ∈ (((buildGroups recs).map Prod.snd).filter fun es => es.length > 1).flatten) :
    ∃ k, (k, e) ∈ recs := by
  obtain ⟨kv, hkv, hee, _⟩ := mem_flatten_groups recs e he
  exact ⟨kv.1, mem_buildGroups_mem_recs recs kv hkv e hee⟩

theorem flatten_groups_paths_nodup (recs : List (Nat × ImageProperties))
    (hnd : (recs.map fun kr => kr.2.path).Nodup) :
    (((((buildGroups recs).map Prod.snd).filter fun es => es.length > 1).flatten).map
      fun e => e.path).Nodup := by
  rw [List.map_flatten, List.nodup_flatten]
  constructor
  · intro l hl
    obtain ⟨es, hes, hl2⟩ := List.mem_map.mp hl
    obtain ⟨hes2, _⟩ := List.mem_filter.mp hes
    obtain ⟨kv, hkv, hkv2⟩ := List.mem_map.mp hes2
    have hgr : kv.2 = (recs.filter fun kr => kr.1 == kv.1).map Prod.snd :=
      (lookupGroup_of_mem _ (keysNodup_buildGroups recs) kv hkv).symm.trans
        (lookupGroup_buildGroups recs kv.1)
    rw [← hl2, ← hkv2, hgr, List.map_map]
    have hsub := (List.filter_sublist (l := recs) (p := fun kr => kr.1 == kv.1)).map
      fun kr : Nat × ImageProperties => kr.2.path
    exact hnd.sublist hsub
  · have hkeys : List.Pairwise (fun kv kv' : Nat × List ImageProperties => kv.1 ≠ kv'.1)
        (buildGroups recs) := List.pairwise_map.mp (keysNodup_buildGroups recs)
    have hpair : List.Pairwise
        (fun kv kv' : Nat × List ImageProperties =>
          (kv.2.map fun e => e.path).Disjoint (kv'.2.map fun e => e.path))
        (buildGroups recs) := by
      refine List.Pairwise.imp_of_mem ?_ hkeys
      intro kv kv' hkv hkv' hne
      intro x hx hx'
      obtain ⟨e, he, he2⟩ := List.mem_map.mp hx
      obtain ⟨e', he', he2'⟩ := List.mem_map.mp hx'
      have m1 := mem_buildGroups_mem_recs recs kv hkv e he
      have m2 := mem_buildGroups_mem_recs recs kv' hkv' e' he'
      have heq : (kv.1, e) = (kv'.1, e') := by
        apply List.inj_on_of_nodup_map hnd m1 m2
        show e.path = e'.path
        rw [he2, he2']
      exact hne (Prod.ext_iff.mp heq).1
    rw [List.pairwise_map]
    apply List.Pairwise.sublist (List.filter_sublist _)
    rw [List.pairwise_map]
    exact hpair

theorem flatten_groups_names_nodup (dir : Path) (recs : List (Nat × ImageProperties))
    (hnd : (recs.map fun kr => kr.2.path).Nodup)
    (hshape : ∀ kr ∈ recs, ∃ name, kr.2.path = dir ++ [name]) :
    (((((buildGroups recs).map Prod.snd).filter fun es => es.length > 1).flatten).map
      nameOf).Nodup := by
  have hpaths := flatten_groups_paths_nodup recs hnd
  have heq : ((((buildGroups recs).map Prod.snd).filter fun es => es.length > 1).flatten).map
        nameOf =
      (((((buildGroups recs).map Prod.snd).filter fun es => es.length > 1).flatten).map
        fun e => e.path).map fun p => p.getLast?.getD "" := by
    rw [List.map_map]
    rfl
  rw [heq]
  apply List.Nodup.map_on ?_ hpaths
  intro x hx y hy hxy
  obtain ⟨e, he, hxe⟩ := List.mem_map.mp hx
  obtain ⟨e', he', hye⟩ := List.mem_map.mp hy
  obtain ⟨k, hk⟩ := mem_flatten_groups_recs recs e he
  obtain ⟨k', hk'⟩ := mem_flatten_groups_recs recs e' he'
  obtain ⟨n, hn⟩ := hshape (k, e) hk
  obtain ⟨n', hn'⟩ := hshape (k', e') hk'
  dsimp at hn hn'
  rw [← hxe, ← hye, hn, hn'] at hxy ⊢
  rw [List.getLast?_concat, List.getLast?_concat] at hxy
  simp at hxy
  rw [hxy]

theorem find_duplicates_ok_parts (oracle : HashOracle) {fs fs1 : FS} {dir : Path}
    (hcr : fs.create_dir_all (dir ++ ["duplicates"]) = .ok fs1) :
    (find_duplicates oracle fs dir).result = .ok () ∧
    (find_duplicates oracle fs dir).attempts =
      (relocate fs1 (dir ++ ["duplicates"])
        (processImages oracle fs (scan fs dir) []).1).attempts ∧
    (find_duplicates oracle fs dir).fs =
      (cleanup (relocate fs1 (dir ++ ["duplicates"])
        (processImages oracle fs (scan fs dir) []).1).fs (dir ++ ["duplicates"])).1 ∧
    (find_duplicates oracle fs dir).stdout =
      (cleanup (relocate fs1 (dir ++ ["duplicates"])
        (processImages oracle fs (scan fs dir) []).1).fs (dir ++ ["duplicates"])).2.1 ∧
    (find_duplicates oracle fs dir).stderr =
      (processImages oracle fs (scan fs dir) []).2 ++
      (relocate fs1 (dir ++ ["duplicates"])
        (processImages oracle fs (scan fs dir) []).1).errs ++
      (cleanup (relocate fs1 (dir ++ ["duplicates"])
        (processImages oracle fs (scan fs dir) []).1).fs (dir ++ ["duplicates"])).2.2 := by
  simp only [find_duplicates]
  rw [hcr]
  exact ⟨rfl, rfl, rfl, rfl, rfl⟩

theorem hname_eq (e : ImageProperties) (dir : Path) (name : String)
    (hpn : e.path = dir ++ [name]) : nameOf e = name := by
  unfold nameOf
  rw [hpn, List.getLast?_concat]
  rfl

theorem not_contains_of_not_mem {α : Type} [BEq α] [LawfulBEq α] {l : List α} {a : α}
    (h : a ∉ l) : l.contains a = false := by
  cases hc : l.contains a
  · rfl
  · exact absurd (mem_of_contains hc) h

theorem mem_dirChain_length {p q : Path} (h : q ∈ dirChain p) : q.length ≤ p.length := by
  unfold dirChain at h
  obtain ⟨i, hi, hq⟩ := List.mem_map.mp h
  rw [← hq, List.length_take]
  omega

/-- Claim C7: within one run a move is attempted exactly for the members of
groups of size at least 2, in group order; every such member is moved — its
source path disappears and its content lands in the quarantine under its
own name, with no member kept back; and every file in a group of size 1 is
left untouched at its original path. (Hypotheses: distinct paths, decode
fails on non-files, the quarantine chain is creatable, and no directory
occupies a quarantine destination name `<dir>/duplicates/<n>`, so that no
`fs::rename` can fail with a directory in the way.) -/
theorem c7_duplicate_groups_moved (oracle : HashOracle) (fs : FS) (dir : Path)
    (hnd : ((fs.files.map Prod.fst) ++ fs.dirs).Nodup)
    (horacle : ∀ p : Path, fs.fileAt p = none → ∀ bytes, oracle p ≠ .ok bytes)
    (hcreate : ∀ q ∈ dirChain (dir ++ ["duplicates"]), fs.fileAt q = none)
    (hqdirs : ∀ n : String, fs.dirExists (dir ++ ["duplicates", n]) = false) :
    (find_duplicates oracle fs dir).attempts.map Prod.fst =
      ((((processImages oracle fs (scan fs dir) []).1.map Prod.snd).filter
        fun es => es.length > 1).flatten).map (fun e => e.path) ∧
    (∀ e ∈ (((processImages oracle fs (scan fs dir) []).1.map Prod.snd).filter
        fun es => es.length > 1).flatten,
      (find_duplicates oracle fs dir).fs.fileAt e.path = none ∧
      (find_duplicates oracle fs dir).fs.fileAt (dir ++ ["duplicates"] ++ [nameOf e]) =
        fs.fileAt e.path ∧ (fs.fileAt e.path).isSome = true) ∧
    (∀ kv ∈ (processImages oracle fs (scan fs dir) []).1, kv.2.length ≤ 1 → ∀ e ∈ kv.2,
      (find_duplicates oracle fs dir).fs.fileAt e.path = fs.fileAt e.path ∧
      (fs.fileAt e.path).isSome = true) := by
  have hgroups : (processImages oracle fs (scan fs dir) []).1 =
      buildGroups (extractRecords oracle fs (scan fs dir)) := by
    rw [processImages_eq]
    rfl
  obtain ⟨fs1, hcr⟩ : ∃ fs1, fs.create_dir_all (dir ++ ["duplicates"]) = .ok fs1 :=
    ⟨_, create_dir_all_ok hcreate⟩
  have hfiles1 : fs1.files = fs.files := create_dir_all_files hcr
  obtain ⟨hres, hatt, hfsr, hout, herr⟩ := find_duplicates_ok_parts oracle hcr
  have himgnd : (scan fs dir).Nodup := scan_nodup fs dir hnd
  have hrecnd : ((extractRecords oracle fs (scan fs dir)).map fun kr => kr.2.path).Nodup := by
    rw [extractRecords_paths_eq]
    exact List.Nodup.filter _ himgnd
  have hshape : ∀ kr ∈ extractRecords oracle fs (scan fs dir),
      ∃ name, kr.2.path = dir ++ [name] ∧ file_name kr.2.path = some name ∧
        (fs.fileAt kr.2.path).isSome = true := by
    intro kr hkr
    obtain ⟨hpmem, bytes, hb⟩ := mem_extractRecords oracle fs (scan fs dir) kr hkr
    obtain ⟨name, hpn, hmem, e, hext, hev⟩ := (scan_mem_iff fs dir kr.2.path).mp hpmem
    refine ⟨name, hpn, ?_, ?_⟩
    · rw [hpn, file_name_append, valid_ext_not_dots name e hext hev]
      rfl
    · cases hfa : fs.fileAt kr.2.path with
      | none => exact absurd hb (horacle kr.2.path hfa bytes)
      | some c => rfl
  have hall : ∀ e ∈ (((buildGroups (extractRecords oracle fs (scan fs dir))).map
      Prod.snd).filter fun es => es.length > 1).flatten,
      file_name e.path = some (nameOf e) ∧
      e.path.length = (dir ++ ["duplicates"]).length ∧
      (fs1.fileAt e.path).isSome = true := by
    intro e he
    obtain ⟨k, hk⟩ := mem_flatten_groups_recs _ e he
    obtain ⟨name, hpn, hfn, hsome⟩ := hshape (k, e) hk
    dsimp only at hpn hfn hsome
    have hb : nameOf e = name := hname_eq e dir name hpn
    refine ⟨by rw [hb]; exact hfn, ?_, ?_⟩
    · rw [hpn]
      simp
    · rw [fileAt_congr hfiles1]
      exact hsome
  have hshape2 : ∀ kr ∈ extractRecords oracle fs (scan fs dir),
      ∃ name, kr.2.path = dir ++ [name] :=
    fun kr hkr => ((hshape kr hkr).imp fun name h => h.1)
  have hfnd := flatten_groups_paths_nodup _ hrecnd
  have hfnames := flatten_groups_names_nodup dir _ hrecnd hshape2
  have hdirs1eq : fs1.dirs = fs.dirs ++ (dirChain (dir ++ ["duplicates"])).filter
      (fun q => !fs.dirExists q) := create_dir_all_dirs hcr
  have hdirsfree : ∀ e ∈ (((buildGroups (extractRecords oracle fs (scan fs dir))).map
      Prod.snd).filter fun es => es.length > 1).flatten,
      fs1.dirExists ((dir ++ ["duplicates"]) ++ [nameOf e]) = false := by
    intro e _
    show fs1.dirs.contains ((dir ++ ["duplicates"]) ++ [nameOf e]) = false
    rw [hdirs1eq]
    apply not_contains_of_not_mem
    intro hm
    rcases List.mem_append.mp hm with hm1 | hm2
    · have hassoc : (dir ++ ["duplicates"]) ++ [nameOf e] =
          dir ++ ["duplicates", nameOf e] := by
        rw [List.append_assoc]
        rfl
      have h2 : fs.dirExists (dir ++ ["duplicates", nameOf e]) = true := by
        apply contains_of_mem
        rw [← hassoc]
        exact hm1
      rw [hqdirs (nameOf e)] at h2
      exact absurd h2 (by simp)
    · have h3 := mem_dirChain_length ((List.mem_filter.mp hm2).1)
      simp only [List.length_append, List.length_cons, List.length_nil] at h3
      omega
  obtain ⟨rerrs, ratt, rmoved, rpres, rdirs⟩ :=
    relocate_spec fs1 (dir ++ ["duplicates"])
      (buildGroups (extractRecords oracle fs (scan fs dir))) hall hdirsfree hfnd hfnames
  have hfsfiles : (find_duplicates oracle fs dir).fs.files =
      (relocate fs1 (dir ++ ["duplicates"])
        (buildGroups (extractRecords oracle fs (scan fs dir)))).fs.files := by
    rw [hfsr, hgroups]
    exact cleanup_files _ _
  refine ⟨?_, ?_, ?_⟩
  · rw [hatt, hgroups, ratt, List.map_map]
    rfl
  · intro e he
    rw [hgroups] at he
    obtain ⟨hnone, hmove⟩ := rmoved e he
    obtain ⟨k, hk⟩ := mem_flatten_groups_recs _ e he
    obtain ⟨name0, hpn0, hfn0, hsomef⟩ := hshape (k, e) hk
    refine ⟨?_, ?_, hsomef⟩
    · rw [fileAt_congr hfsfiles]
      exact hnone
    · rw [fileAt_congr hfsfiles, hmove]
      exact fileAt_congr hfiles1 e.path
  · intro kv hkv hlen1 e he
    rw [hgroups] at hkv
    have hkrec : (kv.1, e) ∈ extractRecords oracle fs (scan fs dir) :=
      mem_buildGroups_mem_recs _ kv hkv e he
    obtain ⟨name, hpn, hfn, hsome⟩ := hshape (kv.1, e) hkrec
    dsimp only at hpn hsome
    have hcond : ∀ e'' ∈ (((buildGroups (extractRecords oracle fs (scan fs dir))).map
        Prod.snd).filter fun es => es.length > 1).flatten,
        e.path ≠ e''.path ∧ e.path ≠ (dir ++ ["duplicates"]) ++ [nameOf e''] := by
      intro e'' he''
      constructor
      · intro hpp
        obtain ⟨kv'', hkv'', he2'', hlen2⟩ := mem_flatten_groups _ e'' he''
        have hkrec2 : (kv''.1, e'') ∈ extractRecords oracle fs (scan fs dir) :=
          mem_buildGroups_mem_recs _ kv'' hkv'' e'' he2''
        have heqp : (kv.1, e) = (kv''.1, e'') :=
          List.inj_on_of_nodup_map hrecnd hkrec hkrec2 hpp
        have hkeq : kv.1 = kv''.1 := (Prod.ext_iff.mp heqp).1
        have hveq : kv = kv'' :=
          List.inj_on_of_nodup_map (keysNodup_buildGroups _) hkv hkv'' hkeq
        rw [hveq] at hlen1
        omega
      · intro hpp
        have h2 := congrArg List.length hpp
        rw [hpn] at h2
        simp at h2
    have hpres := rpres e.path hcond
    refine ⟨?_, hsome⟩
    rw [fileAt_congr hfsfiles, hpres]
    exact fileAt_congr hfiles1 e.path

/-- Witness for C7: in the two-duplicates-plus-one-unique scenario the
attempted sources are exactly the duplicate group members. -/
theorem c7_duplicate_groups_moved_witness :
    (find_duplicates dupOracle dupFS ["d"]).attempts.map Prod.fst =
      ((((processImages dupOracle dupFS (scan dupFS ["d"]) []).1.map Prod.snd).filter
        fun es => es.length > 1).flatten).map (fun e => e.path) :=
  (c7_duplicate_groups_moved dupOracle dupFS ["d"] (by decide)
    (fun p hfa bytes hok => by
      unfold dupOracle at hok
      by_cases h1 : (p == ["d", "a.png"] || p == ["d", "b.png"]) = true
      · rcases Bool.or_eq_true_iff.mp h1 with h | h
        · rw [eq_of_beq h] at hfa
          exact absurd hfa (by decide)
        · rw [eq_of_beq h] at hfa
          exact absurd hfa (by decide)
      · rw [if_neg h1] at hok
        by_cases h2 : (p == ["d", "c.png"]) = true
        · rw [eq_of_beq h2] at hfa
          exact absurd hfa (by decide)
        · rw [if_neg h2] at hok
          exact absurd hok (by simp))
    (by decide) (fun n => rfl)).1

/-! ## Fresh-quarantine run lemmas -/

theorem dirChain_nodup (p : Path) : (dirChain p).Nodup := by
  unfold dirChain
  apply List.Nodup.map_on ?_ (List.nodup_range _)
  intro i hi j hj hij
  rw [List.mem_range] at hi hj
  have h1 : (p.take (i + 1)).length = i + 1 := by
    rw [List.length_take]
    omega
  have h2 : (p.take (j + 1)).length = j + 1 := by
    rw [List.length_take]
    omega
  have h3 := congrArg List.length hij
  rw [h1, h2] at h3
  omega

theorem mem_dirChain_take (p : Path) (k : Nat) (hk1 : 1 ≤ k) (hk2 : k ≤ p.length) :
    p.take k ∈ dirChain p := by
  unfold dirChain
  apply List.mem_map.mpr
  refine ⟨k - 1, List.mem_range.mpr (by omega), ?_⟩
  rw [show k - 1 + 1 = k from by omega]

theorem self_mem_dirChain (p : Path) (hp : p ≠ []) : p ∈ dirChain p := by
  have h1 : 1 ≤ p.length := by
    cases p with
    | nil => exact absurd rfl hp
    | cons a l => simp
  have h2 := mem_dirChain_take p p.length h1 (Nat.le_refl _)
  rw [List.take_length] at h2
  exact h2

theorem childName_isPre {d q : Path} {n : String} (h : childName d q = some n) : d <+: q := by
  rw [childName_eq d q n h]
  exact List.prefix_append d [n]

theorem childName_none_of_short {d q : Path} (h : q.length ≤ d.length) :
    childName d q = none := by
  unfold childName
  have hcond : ¬((q.length == d.length + 1 && q.take d.length == d) = true) := by
    intro hc
    simp only [Bool.and_eq_true, beq_iff_eq] at hc
    obtain ⟨hc1, hc2⟩ := hc
    omega
  rw [if_neg hcond]

theorem fresh_quarantine_run (oracle : HashOracle) (fs : FS) (dir : Path)
    (hnogroups : (((processImages oracle fs (scan fs dir) []).1.map Prod.snd).filter
      fun es => es.length > 1) = [])
    (hfilechain : ∀ q ∈ dirChain (dir ++ ["duplicates"]), fs.fileAt q = none)
    (hfresh : ∀ d ∈ fs.dirs, ¬(dir ++ ["duplicates"]) <+: d)
    (hnofiles : ∀ q ∈ fs.files.map Prod.fst, ¬(dir ++ ["duplicates"]) <+: q) :
    (find_duplicates oracle fs dir).fs.dirExists (dir ++ ["duplicates"]) = false ∧
    (find_duplicates oracle fs dir).stdout = [Msg.noDuplicates dir] ∧
    (find_duplicates oracle fs dir).result = .ok () ∧
    (find_duplicates oracle fs dir).fs.dirs =
      (fs.dirs ++ (dirChain (dir ++ ["duplicates"])).filter
        (fun q => !fs.dirExists q)).erase (dir ++ ["duplicates"]) := by
  have hcr := create_dir_all_ok hfilechain
  obtain ⟨hres, hatt, hfsr, hout, herr⟩ := find_duplicates_ok_parts oracle hcr
  have hrel : relocate
      { fs with
        dirs := fs.dirs ++ (dirChain (dir ++ ["duplicates"])).filter
          (fun q => !fs.dirExists q) }
      (dir ++ ["duplicates"])
      (processImages oracle fs (scan fs dir) []).1 =
      { fs :=
          { fs with
            dirs := fs.dirs ++ (dirChain (dir ++ ["duplicates"])).filter
              (fun q => !fs.dirExists q) },
        buf := dir ++ ["duplicates"], errs := [], attempts := [] } := by
    unfold relocate
    rw [hnogroups]
    rfl
  have hndp : dir ++ ["duplicates"] ∉ fs.dirs :=
    fun hm => hfresh _ hm List.prefix_rfl
  have hex : FS.dirExists
      { fs with
        dirs := fs.dirs ++ (dirChain (dir ++ ["duplicates"])).filter
          (fun q => !fs.dirExists q) }
      (dir ++ ["duplicates"]) = true := by
    apply contains_of_mem
    apply List.mem_append.mpr
    right
    apply List.mem_filter.mpr
    refine ⟨self_mem_dirChain _ (by simp), ?_⟩
    simp only [FS.dirExists]
    rw [not_contains_of_not_mem hndp]
    rfl
  have hld : FS.listDir
      { fs with
        dirs := fs.dirs ++ (dirChain (dir ++ ["duplicates"])).filter
          (fun q => !fs.dirExists q) }
      (dir ++ ["duplicates"]) = [] := by
    unfold FS.listDir
    apply List.append_eq_nil.mpr
    constructor
    · apply List.filterMap_eq_nil_iff.mpr
      intro q hq
      cases hcn : childName (dir ++ ["duplicates"]) q with
      | none => rfl
      | some n => exact absurd (childName_isPre hcn) (hnofiles q hq)
    · apply List.filterMap_eq_nil_iff.mpr
      intro q hq
      rcases List.mem_append.mp hq with hm | hm
      · cases hcn : childName (dir ++ ["duplicates"]) q with
        | none => rfl
        | some n => exact absurd (childName_isPre hcn) (hfresh q hm)
      · exact childName_none_of_short
          (mem_dirChain_length ((List.mem_filter.mp hm).1))
  have hclean : cleanup
      { fs with
        dirs := fs.dirs ++ (dirChain (dir ++ ["duplicates"])).filter
          (fun q => !fs.dirExists q) }
      (dir ++ ["duplicates"]) =
      ({ fs with
         dirs := (fs.dirs ++ (dirChain (dir ++ ["duplicates"])).filter
           (fun q => !fs.dirExists q)).erase (dir ++ ["duplicates"]) },
        [Msg.noDuplicates ((dir ++ ["duplicates"]).dropLast)], []) := by
    unfold cleanup FS.read_dir FS.remove_dir
    rw [hex, hld]
    simp
  refine ⟨?_, ?_, hres, ?_⟩
  · rw [hfsr, hrel]
    dsimp only
    rw [hclean]
    simp only [FS.dirExists]
    apply not_contains_of_not_mem
    rw [List.erase_append_right _ hndp]
    intro hm
    rcases List.mem_append.mp hm with hm | hm
    · exact hndp hm
    · exact (List.Nodup.filter _ (dirChain_nodup _)).not_mem_erase hm
  · rw [hout, hrel]
    dsimp only
    rw [hclean]
    dsimp only
    rw [List.dropLast_concat]
  · rw [hfsr, hrel]
    dsimp only
    rw [hclean]

/-- Claim C1: the claimed collision policy is not what the code does.  With
a leftover `d/duplicates/img.png` occupying the destination name, the move
of `d/img.png` does not fail: `fs::rename` replaces the occupant, the
source is not left in place, the occupant's previous content (99) is
destroyed, and no per-file warning is printed — the run succeeds with an
empty error stream. -/
theorem c1_collision_overwrites :
    (find_duplicates constOracle collisionFS ["d"]).fs.fileAt ["d", "img.png"] = none ∧
    (find_duplicates constOracle collisionFS ["d"]).fs.fileAt
      ["d", "duplicates", "img.png"] = some 10 ∧
    (find_duplicates constOracle collisionFS ["d"]).fs.fileAt
      ["d", "duplicates", "b.png"] = some 11 ∧
    (find_duplicates constOracle collisionFS ["d"]).stderr = [] ∧
    (find_duplicates constOracle collisionFS ["d"]).result = Except.ok () :=
  ⟨rfl, rfl, rfl, rfl, rfl⟩

/-- Counterexample to C2 as stated: scanning a directory that does not
exist produces no directory-level failure — the run returns success and
even reports "no duplicates found" for the missing directory. -/
theorem c2_counterexample :
    emptyFS.dirExists ["missing"] = false ∧
    (find_duplicates failOracle emptyFS ["missing"]).result = Except.ok () ∧
    (find_duplicates failOracle emptyFS ["missing"]).stdout =
      [Msg.noDuplicates ["missing"]] :=
  ⟨rfl, rfl, rfl⟩

/-- Claim C2 amended: a directory-level failure occurs exactly when the
quarantine directory cannot be created (glob reports no error for an
unreadable or missing directory, and its per-entry errors are discarded);
a directory that does not exist is not an error: the run creates the
directory chain, reports "no duplicates found", succeeds, and leaves the
directory itself behind. -/
theorem c2_missing_dir_succeeds (oracle : HashOracle) (fs : FS) (dir : Path)
    (hdir : dir ≠ [])
    (hnofiles : ∀ q ∈ fs.files.map Prod.fst, ¬dir <+: q)
    (hfresh : ∀ d ∈ fs.dirs, ¬dir <+: d)
    (hfilechain : ∀ q ∈ dirChain (dir ++ ["duplicates"]), fs.fileAt q = none) :
    (∀ (o : HashOracle) (fs0 : FS) (d0 : Path),
      isOkE (find_duplicates o fs0 d0).result =
        isOkE (fs0.create_dir_all (d0 ++ ["duplicates"]))) ∧
    (find_duplicates oracle fs dir).result = .ok () ∧
    (find_duplicates oracle fs dir).stdout = [Msg.noDuplicates dir] ∧
    (find_duplicates oracle fs dir).fs.dirExists dir = true ∧
    (find_duplicates oracle fs dir).fs.dirExists (dir ++ ["duplicates"]) = false := by
  have hpre : dir <+: dir ++ ["duplicates"] := List.prefix_append dir ["duplicates"]
  have hnofiles2 : ∀ q ∈ fs.files.map Prod.fst, ¬(dir ++ ["duplicates"]) <+: q :=
    fun q hq hh => hnofiles q hq (hpre.trans hh)
  have hfresh2 : ∀ d ∈ fs.dirs, ¬(dir ++ ["duplicates"]) <+: d :=
    fun d hd hh => hfresh d hd (hpre.trans hh)
  have hscan : scan fs dir = [] := by
    unfold scan glob_entries FS.listDir
    have h1 : (fs.files.map Prod.fst).filterMap (childName dir) = [] := by
      apply List.filterMap_eq_nil_iff.mpr
      intro q hq
      cases hcn : childName dir q with
      | none => rfl
      | some n => exact absurd (childName_isPre hcn) (hnofiles q hq)
    have h2 : fs.dirs.filterMap (childName dir) = [] := by
      apply List.filterMap_eq_nil_iff.mpr
      intro q hq
      cases hcn : childName dir q with
      | none => rfl
      | some n => exact absurd (childName_isPre hcn) (hfresh q hq)
    rw [h1, h2]
    rfl
  have hnogroups : (((processImages oracle fs (scan fs dir) []).1.map Prod.snd).filter
      fun es => es.length > 1) = [] := by
    rw [hscan]
    rfl
  obtain ⟨hq1, hq2, hq3, hq4⟩ :=
    fresh_quarantine_run oracle fs dir hnogroups hfilechain hfresh2 hnofiles2
  refine ⟨?_, hq3, hq2, ?_, hq1⟩
  · intro o fs0 d0
    cases hcr : fs0.create_dir_all (d0 ++ ["duplicates"]) with
    | ok fs1 =>
        rw [(find_duplicates_ok_parts o hcr).1]
        rfl
    | error e =>
        have herr2 : (find_duplicates o fs0 d0).result = .error e := by
          simp only [find_duplicates]
          rw [hcr]
        rw [herr2]
        rfl
  · have hdmem : dir ∈ (dirChain (dir ++ ["duplicates"])).filter
        (fun q => !fs.dirExists q) := by
      apply List.mem_filter.mpr
      constructor
      · have h1 : 1 ≤ dir.length := by
          cases dir with
          | nil => exact absurd rfl hdir
          | cons a l => simp
        have h2 : dir.length ≤ (dir ++ ["duplicates"]).length := by
          rw [List.length_append]
          simp
        have h3 := mem_dirChain_take (dir ++ ["duplicates"]) dir.length h1 h2
        rw [List.take_left] at h3
        exact h3
      · have hnm : dir ∉ fs.dirs := fun hm => hfresh dir hm List.prefix_rfl
        simp only [FS.dirExists]
        rw [not_contains_of_not_mem hnm]
        rfl
    have hne : dir ≠ dir ++ ["duplicates"] := by
      intro hh
      have h2 := congrArg List.length hh
      rw [List.length_append] at h2
      simp at h2
    simp only [FS.dirExists]
    rw [hq4]
    apply contains_of_mem
    exact (List.mem_erase_of_ne hne).mpr (List.mem_append.mpr (Or.inr hdmem))

/-- Witness for the amended C2 at a concrete missing directory. -/
theorem c2_missing_dir_succeeds_witness :
    (find_duplicates failOracle emptyFS ["missing"]).fs.dirExists ["missing"] = true ∧
    (find_duplicates failOracle emptyFS ["missing"]).fs.dirExists
      ["missing", "duplicates"] = false :=
  have h := c2_missing_dir_succeeds failOracle emptyFS ["missing"] (by decide) (by decide)
    (by decide) (by decide)
  ⟨h.2.2.2.1, h.2.2.2.2⟩

/-- Counterexample to C6 as stated: in `leftoverFS` a prior run left
`d/duplicates/old.png`; the current run moves zero files, yet the
quarantine directory still exists after the run and no notice is
printed. -/
theorem c6_counterexample :
    (find_duplicates failOracle leftoverFS ["d"]).attempts = [] ∧
    (find_duplicates failOracle leftoverFS ["d"]).fs.dirExists ["d", "duplicates"] = true ∧
    (find_duplicates failOracle leftoverFS ["d"]).stdout = [] :=
  ⟨rfl, rfl, rfl⟩

/-- Claim C6 amended: when no duplicate-sized group exists (zero files are
moved) and the quarantine directory is fresh — it does not pre-exist and
nothing lives underneath it — the quarantine directory does not exist
after the run, the "no duplicates found" notice naming the directory is
printed, and the run succeeds; the code tests emptiness of the quarantine
directory, so a pre-existing occupant keeps it alive even with zero
moves. -/
theorem c6_empty_quarantine_removed (oracle : HashOracle) (fs : FS) (dir : Path)
    (hnogroups : (((processImages oracle fs (scan fs dir) []).1.map Prod.snd).filter
      fun es => es.length > 1) = [])
    (hfilechain : ∀ q ∈ dirChain (dir ++ ["duplicates"]), fs.fileAt q = none)
    (hfresh : ∀ d ∈ fs.dirs, ¬(dir ++ ["duplicates"]) <+: d)
    (hnofiles : ∀ q ∈ fs.files.map Prod.fst, ¬(dir ++ ["duplicates"]) <+: q) :
    (find_duplicates oracle fs dir).fs.dirExists (dir ++ ["duplicates"]) = false ∧
    (find_duplicates oracle fs dir).stdout = [Msg.noDuplicates dir] ∧
    (find_duplicates oracle fs dir).result = .ok () :=
  have h := fresh_quarantine_run oracle fs dir hnogroups hfilechain hfresh hnofiles
  ⟨h.1, h.2.1, h.2.2.1⟩

/-- Witness for the amended C6: `dupFS` under the failing oracle moves
nothing and the freshly created quarantine directory is gone afterwards. -/
theorem c6_empty_quarantine_removed_witness :
    (find_duplicates failOracle dupFS ["d"]).fs.dirExists ["d", "duplicates"] = false ∧
    (find_duplicates failOracle dupFS ["d"]).stdout = [Msg.noDuplicates ["d"]] :=
  have h := c6_empty_quarantine_removed failOracle dupFS ["d"] (by decide) (by decide)
    (by decide) (by decide)
  ⟨h.1, h.2.1⟩

end ImageDedup
